import Mathlib

/-!
Verification of the Relay-style Global ID / Connection-pagination layer of
`entgql/internal/globalid`.

The repository's checked-in sources are the test suite
(`globalid_test.go`) and the `Video` ent schema (`ent/schema/video.go`);
the Global ID codec, the node resolver and the connection paginator are
generated/library code that is not part of the checked-in tree, so those
components are modelled from the specification's contracts (each such
definition says so in its doc comment).  Opaque identifiers and cursors
are modelled as `List Char` so that the string structure of the encodings
is explicit.
-/

namespace GlobalId

/-! ## Decimal printing and parsing of natural numbers

Modelled from the spec: the codec must serialise heterogeneous raw keys
(numeric, textual, UUID) into an opaque string.  Numeric components are
printed in decimal, the usual `%d`/`%v` formatting.
-/

/-- The character for a single decimal digit `d < 10`. -/
def digitCh (d : Nat) : Char := Char.ofNat (48 + d)

/-- Recognise a decimal digit character. -/
def isDigitCh (c : Char) : Bool := 48 ≤ c.toNat && c.toNat ≤ 57

/-- Numeric value of a digit character. -/
def chVal (c : Char) : Nat := c.toNat - 48

/-- Fuel-driven decimal printer: prepends the digits of `n` to `acc`.
The fuel only has to dominate `n` for the result to be the full decimal
expansion. -/
def natToCharsAux : Nat → Nat → List Char → List Char
  | 0, _, acc => acc
  | fuel + 1, n, acc =>
    if n < 10 then digitCh n :: acc
    else natToCharsAux fuel (n / 10) (digitCh (n % 10) :: acc)

/-- Decimal representation of a natural number, most significant digit
first. -/
def natToChars (n : Nat) : List Char := natToCharsAux (n + 1) n []

/-- Horner evaluation of a digit string on top of an accumulator. -/
def chsVal (cs : List Char) (a : Nat) : Nat :=
  cs.foldl (fun a c => a * 10 + chVal c) a

/-- Parse a non-empty all-digit string as a natural number; `none`
otherwise. -/
def parseDigits (cs : List Char) : Option Nat :=
  if cs.isEmpty then none
  else if cs.all isDigitCh then some (chsVal cs 0) else none

/-! ## Raw keys and their payload encoding -/

/-- A raw primary key.  Per the spec a key is "typed per-entity: integer,
UUID, string"; a UUID is modelled by its 128-bit numeric value. -/
inductive RawKey where
  | intKey (i : Int)
  | strKey (s : List Char)
  | uuidKey (u : Nat)
deriving DecidableEq, Repr

/-- Decimal representation of an integer (a leading `-` for negatives). -/
def intToChars (i : Int) : List Char :=
  if i < 0 then '-' :: natToChars i.natAbs else natToChars i.toNat

/-- Parse an optionally `-`-signed decimal integer. -/
def parseInt (cs : List Char) : Option Int :=
  match cs with
  | '-' :: rest => (parseDigits rest).map (fun n => -(n : Int))
  | _ => (parseDigits cs).map (fun n => (n : Int))

/-- Payload encoding of a raw key.  A one-character kind marker keeps the
three key representations disjoint, so that decoding "recovers the exact
original pair" for every key shape. -/
def encodeKey : RawKey → List Char
  | .intKey i => 'i' :: intToChars i
  | .strKey s => 's' :: s
  | .uuidKey u => 'u' :: natToChars u

/-- Payload decoding of a raw key. -/
def decodeKey : List Char → Option RawKey
  | 'i' :: rest => (parseInt rest).map .intKey
  | 's' :: rest => some (.strKey rest)
  | 'u' :: rest => (parseDigits rest).map .uuidKey
  | _ => none

/-! ## The Global ID codec

Modelled from the spec: `encode(typeTag, rawKey) -> opaqueString` always
embeds the type tag in the encoding; `decode` recovers the tag from the
string itself and fails with a `DecodeError` on malformed strings or
unregistered tags.  The opaque string is `typeTag ++ ":" ++ payload`
(registered tags are entity type names, which never contain `:`).
-/

/-- Decode failure: wrong structure/unknown encoding, or a type tag that
no registered entity variant produces. -/
inductive DecodeError where
  | malformed
  | unknownType
deriving DecidableEq, Repr

/-- `encode(typeTag, rawKey)`: the opaque Global ID string. -/
def encode (t : List Char) (k : RawKey) : List Char := t ++ ':' :: encodeKey k

/-- Split an opaque string at its first `:`; `none` when no `:` occurs. -/
def breakColon : List Char → Option (List Char × List Char)
  | [] => none
  | c :: rest =>
    if c = ':' then some ([], rest)
    else (breakColon rest).map (fun p => (c :: p.1, p.2))

/-- `decode(opaqueString)`: recover `(typeTag, rawKey)`, or fail with a
`DecodeError` when the structure is wrong or the tag is not registered. -/
def decode (tags : List (List Char)) (s : List Char) :
    Except DecodeError (List Char × RawKey) :=
  match breakColon s with
  | none => .error .malformed
  | some (t, payload) =>
    if t ∈ tags then
      match decodeKey payload with
      | some k => .ok (t, k)
      | none => .error .malformed
    else .error .unknownType

/-! ## Node registry and the node/nodes resolver

Modelled from the spec: the registry maps a type tag to a capability
bundle `{typeTag, loadOne}`; `loadMany` is the storage collaborator's
batched lookup, which "returns results in matching order with gaps as
absent", i.e. the pointwise batching of `loadOne`.  `resolveNodes`
groups the decoded IDs by type tag, issues one `loadMany` per tag, and
reassembles the per-tag results back into the original input order.
-/

/-- A registered capability bundle for one entity variant. -/
structure Bundle (α : Type) where
  typeTag : List Char
  loadOne : RawKey → Option α

/-- The process-wide node registry, populated once at startup. -/
structure Registry (α : Type) where
  bundles : List (Bundle α)

/-- The set of registered type tags. -/
def Registry.tags {α : Type} (R : Registry α) : List (List Char) :=
  R.bundles.map (·.typeTag)

/-- `lookup(typeTag)`: the capability bundle for a tag, if registered. -/
def Registry.lookup {α : Type} (R : Registry α) (t : List Char) :
    Option (Bundle α) :=
  R.bundles.find? (fun b => b.typeTag = t)

/-- Point lookup through the registry: `none` when the tag has no
bundle. -/
def loadOneVia {α : Type} (R : Registry α) (t : List Char) (k : RawKey) :
    Option α :=
  match R.lookup t with
  | some b => b.loadOne k
  | none => none

/-- Batched lookup per type: the storage collaborator's `loadMany`,
pointwise on the ordered key sequence with gaps as `none`. -/
def loadManyVia {α : Type} (R : Registry α) (t : List Char)
    (ks : List RawKey) : List (Option α) :=
  ks.map (loadOneVia R t)

/-- `resolveNode(opaqueId)`: decode, look up the bundle, load; `none`
when the entity does not exist (deletion is expected, not exceptional). -/
def resolveNode {α : Type} (R : Registry α) (s : List Char) : Option α :=
  match decode R.tags s with
  | .ok (t, k) => loadOneVia R t k
  | .error _ => none

/-- The keys of the positions whose ID decoded to tag `t`, in input
order: one per-tag batch for `loadMany`. -/
def groupKeys (ds : List (Option (List Char × RawKey))) (t : List Char) :
    List RawKey :=
  ds.filterMap (fun o =>
    match o with
    | some (t', k) => if t' = t then some k else none
    | none => none)

/-- Reassemble the per-tag batch results back into original input order,
consuming one result from a tag's batch at each position carrying that
tag. -/
def reassemble {α : Type} :
    List (Option (List Char × RawKey)) → (List Char → List (Option α)) →
      List (Option α)
  | [], _ => []
  | none :: rest, res => none :: reassemble rest res
  | some (t, _) :: rest, res =>
    match res t with
    | [] => none :: reassemble rest res
    | r :: rs => r :: reassemble rest (fun t' => if t' = t then rs else res t')

/-- `resolveNodes(opaqueIds)`: decode every ID, group by type tag, batch
one `loadMany` per tag, and reassemble into input order; positions that
fail stay `none` instead of aborting the batch. -/
def resolveNodes {α : Type} (R : Registry α) (ids : List (List Char)) :
    List (Option α) :=
  let ds := ids.map (fun s => (decode R.tags s).toOption)
  reassemble ds (fun t => loadManyVia R t (groupKeys ds t))

/-- The `User` entity's type tag. -/
def userTag : List Char := ['U', 's', 'e', 'r']

/-! ## Cursor codec and the connection paginator

Modelled from the spec: cursors opaquely encode an ordering position
(here the single sort key, a natural number); the paginator validates
the four mutually exclusive argument modes, computes `totalCount` from
the filter alone, fetches one probe row beyond the limit for
`hasNextPage`/`hasPreviousPage`, and for backward pagination scans
descending, limits, and reverses back to ascending order.
-/

/-- `encode(position)`: the opaque cursor for an ordering position. -/
def encodeCursor (p : Nat) : List Char := natToChars p

/-- `decode(opaqueCursor)`: the ordering position, or `none` when
malformed. -/
def decodeCursor (c : List Char) : Option Nat := parseDigits c

/-- Pagination-argument errors. -/
inductive PagError where
  | conflictingArguments
  | invalidArgument
  | invalidCursor
deriving DecidableEq, Repr

/-- The client's pagination arguments. -/
structure PageArgs where
  first : Option Int
  after : Option (List Char)
  last : Option Int
  before : Option (List Char)

/-- One edge of a connection: a node plus the cursor of its position. -/
structure Edge (α : Type) where
  node : α
  cursor : List Char
deriving DecidableEq, Repr

/-- Page-boundary info of a connection. -/
structure PageInfo where
  hasNextPage : Bool
  hasPreviousPage : Bool
  startCursor : Option (List Char)
  endCursor : Option (List Char)
deriving DecidableEq, Repr

/-- A materialised page: edges, page info and the filter-wide total. -/
structure Connection (α : Type) where
  edges : List (Edge α)
  pageInfo : PageInfo
  totalCount : Nat
deriving DecidableEq, Repr

/-- `true` exactly when an explicitly supplied limit is negative. -/
def negArg : Option Int → Bool
  | some n => decide (n < 0)
  | none => false

/-- Decode an optional cursor into an optional position bound. -/
def decodePos : Option (List Char) → Except PagError (Option Nat)
  | none => .ok none
  | some c =>
    match decodeCursor c with
    | some p => .ok (some p)
    | none => .error .invalidCursor

/-- Entities strictly after the decoded position (or all of them). -/
def afterBounded {α : Type} (key : α → Nat) (filtered : List α) :
    Option Nat → List α
  | none => filtered
  | some p => filtered.filter (fun e => decide (p < key e))

/-- Entities strictly before the decoded position (or all of them). -/
def beforeBounded {α : Type} (key : α → Nat) (filtered : List α) :
    Option Nat → List α
  | none => filtered
  | some p => filtered.filter (fun e => decide (key e < p))

/-- Forward window: take `limit` rows plus one probe row; the probe row
only feeds `hasNextPage`.  Without a limit the whole bounded scan is the
page. -/
def forwardWindow {α : Type} (l : List α) : Option Nat → List α × Bool
  | none => (l, false)
  | some k =>
    let probe := l.take (k + 1)
    (probe.take k, decide (k < probe.length))

/-- Backward window: scan descending, take `limit` rows plus one probe
row, then reverse the slice back into ascending order. -/
def backwardWindow {α : Type} (l : List α) (k : Nat) : List α × Bool :=
  let probe := l.reverse.take (k + 1)
  ((probe.take k).reverse, decide (k < probe.length))

/-- Wrap a page into a connection: per-row cursors via the cursor codec,
boundary cursors from the first/last edge, the filter-wide total. -/
def mkConnection {α : Type} (key : α → Nat) (page : List α) (total : Nat)
    (hasNext hasPrev : Bool) : Connection α :=
  let edges := page.map (fun e => Edge.mk e (encodeCursor (key e)))
  ⟨edges, ⟨hasNext, hasPrev, edges.head?.map (·.cursor),
    edges.getLast?.map (·.cursor)⟩, total⟩

/-- The connection paginator.  Four mutually exclusive modes: both
limits set is `conflictingArguments`; a negative limit is
`invalidArgument`; `last` (+ optional `before`) paginates backward;
otherwise `first` (+ optional `after`) — or no arguments at all —
paginates forward.  `totalCount` always counts the filter alone. -/
def paginate {α : Type} (key : α → Nat) (all : List α) (pred : α → Bool)
    (args : PageArgs) : Except PagError (Connection α) :=
  if args.first.isSome && args.last.isSome then .error .conflictingArguments
  else if negArg args.first || negArg args.last then .error .invalidArgument
  else
    let filtered := all.filter pred
    let total := filtered.length
    match args.last with
    | some l =>
      match decodePos args.before with
      | .error e => .error e
      | .ok p? =>
        let w := backwardWindow (beforeBounded key filtered p?) l.toNat
        .ok (mkConnection key w.1 total args.before.isSome w.2)
    | none =>
      match decodePos args.after with
      | .error e => .error e
      | .ok p? =>
        let w := forwardWindow (afterBounded key filtered p?) (args.first.map Int.toNat)
        .ok (mkConnection key w.1 total w.2 args.after.isSome)

/-- The `User` entity of the test schema: an integer primary key in
creation order, and a name.  Transcribed from `globalid_test.go`. -/
structure User where
  key : Nat
  name : String
deriving DecidableEq, Repr

/-- The four users `U1`..`U4` created in order by the test suite. -/
def users4 : List User := [⟨1, "U1"⟩, ⟨2, "U2"⟩, ⟨3, "U3"⟩, ⟨4, "U4"⟩]

/-- Pagination arguments with no `first`/`last`/`after`/`before`. -/
def noArgs : PageArgs := ⟨none, none, none, none⟩

/-- Modelled from the spec: the GraphQL layer computes the wire-level
`id` of every node it returns via the Global ID Codec from the node's
type tag and raw key. -/
def wireNodeId (u : User) : List Char := encode userTag (.intKey u.key)

/-- Modelled from the tests: `u.GlobalID().String()` — the Global ID an
entity computes client-side, with no server round trip. -/
def User.globalID (u : User) : List Char := encode userTag (.intKey u.key)

/-- The `User` capability bundle over a concrete store: point lookup by
integer primary key. -/
def userBundle (store : List User) : Bundle User :=
  ⟨userTag, fun k =>
    match k with
    | .intKey i => store.find? (fun u => decide ((u.key : Int) = i))
    | _ => none⟩

/-- A registry with only the `User` variant registered. -/
def userRegistry (store : List User) : Registry User :=
  ⟨[userBundle store]⟩

/-- Modelled from the spec: the `where {id: $id}` filter decodes the
opaque Global ID and keeps the entities whose tag and raw key match it. -/
def whereIdPred (s : List Char) (u : User) : Bool :=
  match decode [userTag] s with
  | .ok (t, .intKey i) => decide (t = userTag ∧ i = (u.key : Int))
  | _ => false

/-! ## The `Video` schema -/

/-- The GraphQL-relevant field kinds occurring in the `Video` schema. -/
inductive FieldKind where
  | uuidField
  | stringField
deriving DecidableEq, Repr

/-- A field-level marker from the schema. -/
inductive Annot where
  | globalID
  | gqlType (t : String)
deriving DecidableEq, Repr

/-- One schema field: name, kind, whether it has a default generator,
and its markers. -/
structure FieldDef where
  name : String
  kind : FieldKind
  hasDefault : Bool
  annots : List Annot
deriving DecidableEq, Repr

/-- Transcribed from `ent/schema/video.go` (`Video.Fields`):
`field.UUID("id", ...).Default(uuid.New).Annotations(entgql.GlobalID())`,
`field.String("name")`, and `field.UUID("post_id", ...)
.Annotations(entgql.GlobalID(), entgql.Type("ID"))` with no edge
definition. -/
def videoFields : List FieldDef :=
  [⟨"id", .uuidField, true, [.globalID]⟩,
    ⟨"name", .stringField, false, []⟩,
    ⟨"post_id", .uuidField, false, [.globalID, .gqlType "ID"]⟩]

/-- A persisted video row (UUIDs by their numeric value). -/
structure Video where
  id : Nat
  name : String
  postId : Nat
deriving DecidableEq, Repr

/-- Creation of a video: absent an explicit `id`, the field's default
generator (`uuid.New`) supplies the freshly generated UUID. -/
def createVideo (genUUID : Nat) (explicitId : Option Nat) (name : String)
    (postId : Nat) : Video :=
  ⟨explicitId.getD genUUID, name, postId⟩

/-- The `Video` entity's type tag. -/
def videoTag : List Char := ['V', 'i', 'd', 'e', 'o']

/-! ## Theorems -/

theorem chVal_digitCh {d : Nat} (h : d < 10) : chVal (digitCh d) = d := by
  interval_cases d <;> decide

theorem isDigitCh_digitCh {d : Nat} (h : d < 10) : isDigitCh (digitCh d) = true := by
  interval_cases d <;> decide

theorem chsVal_cons (c : Char) (cs : List Char) (a : Nat) :
    chsVal (c :: cs) a = chsVal cs (a * 10 + chVal c) := rfl

theorem natToCharsAux_val (fuel : Nat) :
    ∀ n acc, n < fuel →
      ∃ e, ∀ v, chsVal (natToCharsAux fuel n acc) v = chsVal acc (v * 10 ^ e + n) := by
  induction fuel with
  | zero => intro n acc h; omega
  | succ fuel ih =>
    intro n acc h
    by_cases h10 : n < 10
    · refine ⟨1, fun v => ?_⟩
      simp only [natToCharsAux, if_pos h10, chsVal_cons, chVal_digitCh h10, pow_one]
    · have hdiv : n / 10 < n := Nat.div_lt_self (by omega) (by omega)
      obtain ⟨e, he⟩ := ih (n / 10) (digitCh (n % 10) :: acc) (by omega)
      refine ⟨e + 1, fun v => ?_⟩
      simp only [natToCharsAux, if_neg h10, he, chsVal_cons,
        chVal_digitCh (Nat.mod_lt _ (by omega))]
      congr 1
      have := Nat.div_add_mod n 10
      ring_nf
      omega

theorem natToCharsAux_digits (fuel : Nat) :
    ∀ n acc, acc.all isDigitCh = true →
      (natToCharsAux fuel n acc).all isDigitCh = true := by
  induction fuel with
  | zero => intro n acc h; exact h
  | succ fuel ih =>
    intro n acc h
    by_cases h10 : n < 10
    · simpa [natToCharsAux, if_pos h10, isDigitCh_digitCh h10] using h
    · simp only [natToCharsAux, if_neg h10]
      refine ih (n / 10) _ ?_
      simpa [isDigitCh_digitCh (Nat.mod_lt n (show 0 < 10 by omega))] using h

theorem natToCharsAux_ne_nil (fuel : Nat) :
    ∀ n acc, n < fuel → natToCharsAux fuel n acc ≠ [] := by
  induction fuel with
  | zero => intro n acc h; omega
  | succ fuel ih =>
    intro n acc h
    by_cases h10 : n < 10
    · simp [natToCharsAux, if_pos h10]
    · have hdiv : n / 10 < n := Nat.div_lt_self (by omega) (by omega)
      simpa [natToCharsAux, if_neg h10] using ih (n / 10) _ (by omega)

/-- Decimal printing and parsing round-trip. -/
theorem parseDigits_natToChars (n : Nat) : parseDigits (natToChars n) = some n := by
  have hne : natToChars n ≠ [] := natToCharsAux_ne_nil (n + 1) n [] (by omega)
  have hdig : (natToChars n).all isDigitCh = true :=
    natToCharsAux_digits (n + 1) n [] rfl
  obtain ⟨e, he⟩ := natToCharsAux_val (n + 1) n [] (by omega)
  have hval : chsVal (natToChars n) 0 = n := by
    have := he 0
    simpa [chsVal] using this
  simp [parseDigits, List.isEmpty_iff, hne, hdig, hval]

theorem head_natToChars_isDigit (n : Nat) :
    ∃ c cs, natToChars n = c :: cs ∧ isDigitCh c = true := by
  have hne : natToChars n ≠ [] := natToCharsAux_ne_nil (n + 1) n [] (by omega)
  have hdig : (natToChars n).all isDigitCh = true :=
    natToCharsAux_digits (n + 1) n [] rfl
  cases h : natToChars n with
  | nil => exact absurd h hne
  | cons c cs =>
    rw [h] at hdig
    exact ⟨c, cs, rfl, by simpa using (List.all_eq_true.mp hdig c (by simp))⟩

theorem parseInt_intToChars (i : Int) : parseInt (intToChars i) = some i := by
  by_cases h : i < 0
  · rw [intToChars, if_pos h]
    show (parseDigits (natToChars i.natAbs)).map (fun n => -(n : Int)) = some i
    rw [parseDigits_natToChars]
    show some (-(i.natAbs : Int)) = some i
    congr 1
    omega
  · rw [intToChars, if_neg h]
    obtain ⟨c, cs, heq, hdigc⟩ := head_natToChars_isDigit i.toNat
    have hcne : c ≠ '-' := by
      intro hc
      rw [hc] at hdigc
      exact absurd hdigc (by decide)
    have hparse : parseInt (natToChars i.toNat) =
        (parseDigits (natToChars i.toNat)).map (fun n => (n : Int)) := by
      rw [heq]
      unfold parseInt
      split
      · rename_i rest heq'
        injection heq' with h1 _
        exact absurd h1 hcne
      · rfl
    rw [hparse, parseDigits_natToChars]
    show some ((i.toNat : Int)) = some i
    congr 1
    omega

/-- Kind-tagged payload decoding inverts payload encoding. -/
theorem decodeKey_encodeKey (k : RawKey) : decodeKey (encodeKey k) = some k := by
  cases k with
  | intKey i => simp [encodeKey, decodeKey, parseInt_intToChars]
  | strKey s => simp [encodeKey, decodeKey]
  | uuidKey u => simp [encodeKey, decodeKey, parseDigits_natToChars]

theorem breakColon_append {t : List Char} (p : List Char) (h : ':' ∉ t) :
    breakColon (t ++ ':' :: p) = some (t, p) := by
  induction t with
  | nil => simp [breakColon]
  | cons c rest ih =>
    have hc : c ≠ ':' := fun hc => h (hc ▸ List.mem_cons_self c rest)
    have hrest : ':' ∉ rest := fun hm => h (List.mem_cons_of_mem c hm)
    simp [breakColon, hc, ih hrest]

theorem decode_encode {tags : List (List Char)} {t : List Char} (k : RawKey)
    (ht : t ∈ tags) (hc : ':' ∉ t) :
    decode tags (encode t k) = .ok (t, k) := by
  rw [decode, encode, breakColon_append _ hc]
  simp [ht, decodeKey_encodeKey]

theorem encode_inj {t t' : List Char} {k k' : RawKey}
    (hc : ':' ∉ t) (hc' : ':' ∉ t')
    (h : encode t k = encode t' k') : t = t' ∧ k = k' := by
  have h1 : breakColon (encode t k) = some (t, encodeKey k) :=
    breakColon_append _ hc
  have h2 : breakColon (encode t' k') = some (t', encodeKey k') :=
    breakColon_append _ hc'
  rw [h, h2] at h1
  obtain ⟨ht, hp⟩ := Prod.mk.injEq .. ▸ Option.some.inj h1.symm
  refine ⟨ht, ?_⟩
  have := congrArg decodeKey hp
  rw [decodeKey_encodeKey, decodeKey_encodeKey] at this
  exact Option.some.inj this

theorem groupKeys_cons_none (rest : List (Option (List Char × RawKey)))
    (t : List Char) : groupKeys (none :: rest) t = groupKeys rest t := rfl

theorem groupKeys_cons_same (rest : List (Option (List Char × RawKey)))
    (t : List Char) (k : RawKey) :
    groupKeys (some (t, k) :: rest) t = k :: groupKeys rest t := by
  simp [groupKeys]

theorem groupKeys_cons_other {t t' : List Char}
    (rest : List (Option (List Char × RawKey))) (k : RawKey) (h : t ≠ t') :
    groupKeys (some (t, k) :: rest) t' = groupKeys rest t' := by
  simp [groupKeys, h]

/-- Grouped per-tag batching followed by reassembly is exactly the
position-wise lookup: batching is an optimisation, not a semantic
change. -/
theorem reassemble_groups {α : Type} (f : List Char → RawKey → Option α) :
    ∀ (ds : List (Option (List Char × RawKey)))
      (res : List Char → List (Option α)),
      (∀ t, res t = (groupKeys ds t).map (f t)) →
      reassemble ds res =
        ds.map (fun o => match o with | some (t, k) => f t k | none => none) := by
  intro ds
  induction ds with
  | nil => intro res _; rfl
  | cons d rest ih =>
    intro res hres
    match d with
    | none =>
      simp only [reassemble, List.map_cons]
      refine congrArg _ (ih res (fun t => ?_))
      rw [hres t, groupKeys_cons_none]
    | some (t, k) =>
      simp only [reassemble, List.map_cons]
      rw [hres t, groupKeys_cons_same, List.map_cons]
      refine congrArg _ (ih _ (fun t' => ?_))
      by_cases ht' : t' = t
      · subst ht'
        simp
      · have : (t' = t) = False := by simp [ht']
        simp only [this, if_false]
        rw [hres t', groupKeys_cons_other rest k (fun h => ht' h.symm)]

/-- C1: for every registered type tag `T` (tags are entity type names,
so they contain no `:`) and raw key `k` — integer, string, or UUID —
`decode (encode T k)` succeeds and returns exactly `(T, k)`, and `encode`
is injective: two distinct `(typeTag, rawKey)` pairs never produce the
same opaque string. -/
theorem claim_C1 (tags : List (List Char)) (t : List Char) (k : RawKey)
    (ht : t ∈ tags) (hc : ':' ∉ t) :
    decode tags (encode t k) = .ok (t, k) ∧
      ∀ t' k', ':' ∉ t' → encode t k = encode t' k' → t = t' ∧ k = k' :=
  ⟨decode_encode k ht hc, fun _ _ hc' h => encode_inj hc hc' h⟩

theorem claim_C1_witness :
    (userTag ∈ [userTag] ∧ ':' ∉ userTag) ∧
      (decode [userTag] (encode userTag (.intKey 1)) = .ok (userTag, .intKey 1) ∧
        ∀ t' k', ':' ∉ t' → encode userTag (.intKey 1) = encode t' k' →
          userTag = t' ∧ (RawKey.intKey 1) = k') :=
  ⟨⟨by decide, by decide⟩,
    claim_C1 [userTag] userTag (.intKey 1) (by decide) (by decide)⟩

/-- C2: `resolveNodes` returns a sequence of exactly the input's length
whose `i`-th element is the entity resolved from the `i`-th input ID
(the position-wise `resolveNode`), regardless of how entity types are
interleaved; a position whose ID fails to decode, names an unregistered
type, or refers to a non-existent entity is `none` rather than aborting
the batch. -/
theorem claim_C2 {α : Type} (R : Registry α) (ids : List (List Char)) :
    (resolveNodes R ids).length = ids.length ∧
      resolveNodes R ids = ids.map (resolveNode R) := by
  have hmain : resolveNodes R ids = ids.map (resolveNode R) := by
    simp only [resolveNodes, loadManyVia]
    rw [reassemble_groups (loadOneVia R) _ _ (fun t => rfl), List.map_map]
    have : ((fun o => match o with
            | some (t, k) => loadOneVia R t k
            | none => none) ∘ fun s => (decode R.tags s).toOption) =
        resolveNode R := by
      funext s
      simp only [Function.comp_apply, resolveNode]
      cases decode R.tags s with
      | ok p => obtain ⟨t, k⟩ := p; rfl
      | error e => rfl
    rw [this]
  exact ⟨by rw [hmain, List.length_map], hmain⟩

/-- C8: for every input string, `decode` terminates (it is a total
function) with either a successful `(typeTag, rawKey)` — whose tag is
always a registered one — or a `DecodeError`; wrong structure, unknown
encodings and unregistered tags all surface as `DecodeError`, never as
an unrecovered fault. -/
theorem claim_C8 (tags : List (List Char)) (s : List Char) :
    (∃ e, decode tags s = .error e) ∨
      (∃ t k, decode tags s = .ok (t, k) ∧ t ∈ tags) := by
  cases hb : breakColon s with
  | none => exact .inl ⟨.malformed, by rw [decode, hb]⟩
  | some p =>
    obtain ⟨t, payload⟩ := p
    by_cases ht : t ∈ tags
    · cases hk : decodeKey payload with
      | none => exact .inl ⟨.malformed, by rw [decode, hb]; simp [ht, hk]⟩
      | some k => exact .inr ⟨t, k, by rw [decode, hb]; simp [ht, hk], ht⟩
    · exact .inl ⟨.unknownType, by rw [decode, hb]; simp [ht]⟩

theorem mkConnection_totalCount {α : Type} (key : α → Nat) (page : List α)
    (total : Nat) (hn hp : Bool) :
    (mkConnection key page total hn hp).totalCount = total := rfl

theorem mkConnection_nodes {α : Type} (key : α → Nat) (page : List α)
    (total : Nat) (hn hp : Bool) :
    (mkConnection key page total hn hp).edges.map (·.node) = page := by
  simp [mkConnection, Function.comp_def]

theorem mkConnection_endCursor {α : Type} (key : α → Nat) (page : List α)
    (total : Nat) (hn hp : Bool) :
    (mkConnection key page total hn hp).pageInfo.endCursor =
      page.getLast?.map (fun e => encodeCursor (key e)) := by
  simp [mkConnection, List.getLast?_map, Function.comp_def]

theorem negArg_none : negArg none = false := rfl

/-- Evaluation of the paginator in forward mode. -/
theorem paginate_forward {α : Type} (key : α → Nat) (all : List α)
    (pred : α → Bool) (first? : Option Int) (a? : Option (List Char))
    (p? : Option Nat) (hneg : negArg first? = false)
    (hd : decodePos a? = .ok p?) :
    paginate key all pred ⟨first?, a?, none, none⟩ =
      .ok (mkConnection key
        (forwardWindow (afterBounded key (all.filter pred) p?)
          (first?.map Int.toNat)).1
        (all.filter pred).length
        (forwardWindow (afterBounded key (all.filter pred) p?)
          (first?.map Int.toNat)).2
        a?.isSome) := by
  simp only [paginate, Option.isSome_none, Bool.and_false, hneg,
    negArg_none, Bool.or_self, Bool.false_eq_true, if_false, hd]

/-- Evaluation of the paginator in backward mode. -/
theorem paginate_backward {α : Type} (key : α → Nat) (all : List α)
    (pred : α → Bool) (l : Int) (b? : Option (List Char))
    (p? : Option Nat) (hneg : negArg (some l) = false)
    (hd : decodePos b? = .ok p?) :
    paginate key all pred ⟨none, none, some l, b?⟩ =
      .ok (mkConnection key
        (backwardWindow (beforeBounded key (all.filter pred) p?) l.toNat).1
        (all.filter pred).length
        b?.isSome
        (backwardWindow (beforeBounded key (all.filter pred) p?) l.toNat).2) := by
  simp only [paginate, Option.isSome_none, Bool.false_and, hneg,
    negArg_none, Bool.false_or, Bool.false_eq_true, if_false, hd]

theorem paginate_ok_totalCount {α : Type} {key : α → Nat} {all : List α}
    {pred : α → Bool} {args : PageArgs} {c : Connection α}
    (h : paginate key all pred args = .ok c) :
    c.totalCount = (all.filter pred).length := by
  simp only [paginate] at h
  split at h
  · exact Except.noConfusion h
  · split at h
    · exact Except.noConfusion h
    · split at h
      · split at h
        · exact Except.noConfusion h
        · rw [← Except.ok.inj h, mkConnection_totalCount]
      · split at h
        · exact Except.noConfusion h
        · rw [← Except.ok.inj h, mkConnection_totalCount]

/-- C3: whenever a pagination request succeeds, the connection's
`totalCount` is the number of entities satisfying the filter alone (no
position bound, no limit); consequently it is the same value for every
choice of `first`/`last`/`after`/`before` over the same filter. -/
theorem claim_C3 {α : Type} (key : α → Nat) (all : List α) (pred : α → Bool)
    (args : PageArgs) (c : Connection α)
    (h : paginate key all pred args = .ok c) :
    c.totalCount = (all.filter pred).length ∧
      ∀ args' c', paginate key all pred args' = .ok c' →
        c'.totalCount = c.totalCount := by
  refine ⟨paginate_ok_totalCount h, fun args' c' h' => ?_⟩
  rw [paginate_ok_totalCount h', paginate_ok_totalCount h]

theorem claim_C3_witness :
    ∃ c, paginate User.key users4 (fun _ => true) ⟨some 2, none, none, none⟩ =
        .ok c ∧
      c.totalCount = (users4.filter (fun _ => true)).length ∧
      ∀ args' c', paginate User.key users4 (fun _ => true) args' = .ok c' →
        c'.totalCount = c.totalCount :=
  ⟨_, rfl, claim_C3 User.key users4 (fun _ => true)
    ⟨some 2, none, none, none⟩ _ rfl⟩

/-- C7: whenever both `first` and `last` are supplied the paginator
fails with `ConflictingArgumentsError` and produces no page. -/
theorem claim_C7 {α : Type} (key : α → Nat) (all : List α) (pred : α → Bool)
    (args : PageArgs) (a b : Int) (hf : args.first = some a)
    (hl : args.last = some b) :
    paginate key all pred args = .error .conflictingArguments := by
  simp [paginate, hf, hl]

theorem claim_C7_witness :
    (PageArgs.mk (some 1) none (some 1) none).first = some 1 ∧
      (PageArgs.mk (some 1) none (some 1) none).last = some 1 ∧
      paginate User.key users4 (fun _ => true)
          (PageArgs.mk (some 1) none (some 1) none) =
        .error .conflictingArguments :=
  ⟨rfl, rfl, claim_C7 User.key users4 (fun _ => true) _ 1 1 rfl rfl⟩

theorem pairwise_getLast_bound {α : Type} {r : α → α → Prop} :
    ∀ {l : List α}, l.Pairwise r → ∀ (hne : l ≠ []) {x}, x ∈ l →
      x = l.getLast hne ∨ r x (l.getLast hne) := by
  intro l
  induction l with
  | nil => intro _ hne; exact absurd rfl hne
  | cons a t ih =>
    intro hl hne x hx
    cases t with
    | nil =>
      have hxa : x = a := by simpa using hx
      exact .inl (by simp [hxa])
    | cons b t' =>
      have htne : b :: t' ≠ [] := by simp
      have hgl : (a :: b :: t').getLast hne = (b :: t').getLast htne :=
        List.getLast_cons htne
      rcases List.mem_cons.mp hx with rfl | hx'
      · refine .inr ?_
        rw [hgl]
        exact (List.pairwise_cons.mp hl).1 _ (List.getLast_mem htne)
      · rw [hgl]
        exact ih (List.pairwise_cons.mp hl).2 htne hx'

/-- In a strictly-ascending list, the elements strictly after the last
element of the first `k` entries are exactly the entries from position
`k` on: the "strictly after the cursor" bound resumes the scan with no
gap and no overlap. -/
theorem filter_gt_getLast_take {α : Type} (key : α → Nat) (l : List α)
    (hs : l.Pairwise (fun a b => key a < key b)) (k : Nat) (m : α)
    (hm : (l.take k).getLast? = some m) :
    l.filter (fun e => decide (key m < key e)) = l.drop k := by
  have hne : l.take k ≠ [] := by
    intro h
    rw [h] at hm
    exact Option.noConfusion hm
  have hmval : m = (l.take k).getLast hne := by
    have := List.getLast?_eq_getLast (l.take k) hne
    rw [this] at hm
    exact (Option.some.inj hm).symm
  have hpw : ((l.take k) ++ (l.drop k)).Pairwise (fun a b => key a < key b) := by
    rw [List.take_append_drop]; exact hs
  obtain ⟨hpa, hpb, hcross⟩ := List.pairwise_append.mp hpw
  have hmmem : m ∈ l.take k := hmval ▸ List.getLast_mem hne
  have hfa : (l.take k).filter (fun e => decide (key m < key e)) = [] := by
    rw [List.filter_eq_nil_iff]
    intro x hx
    rcases pairwise_getLast_bound hpa hne hx with hxm | hlt
    · rw [hxm, ← hmval]
      simp
    · rw [← hmval] at hlt
      simp only [decide_eq_true_eq]
      omega
  have hfb : (l.drop k).filter (fun e => decide (key m < key e)) = l.drop k := by
    rw [List.filter_eq_self]
    intro y hy
    simpa using hcross m hmmem y hy
  calc l.filter (fun e => decide (key m < key e))
      = ((l.take k) ++ (l.drop k)).filter (fun e => decide (key m < key e)) := by
        rw [List.take_append_drop]
    _ = l.drop k := by rw [List.filter_append, hfa, hfb, List.nil_append]

theorem paginate_first_neg {α : Type} (key : α → Nat) (all : List α)
    (pred : α → Bool) (k : Int) (a? b? : Option (List Char))
    (hneg : negArg (some k) = true) :
    paginate key all pred ⟨some k, a?, none, b?⟩ = .error .invalidArgument := by
  simp [paginate, hneg]

theorem forwardWindow_fst {α : Type} (l : List α) (k : Nat) :
    (forwardWindow l (some k)).1 = l.take k := by
  simp only [forwardWindow, List.take_take]
  congr 1
  omega

/-- C4: forward pagination is gap-free and overlap-free: over a
strictly-ascending collection, a `first=k` page holds the first `k`
filtered items, and `first=k` with `after` set to that page's
`endCursor` holds exactly the next `k` filtered items — no item
repeated, none skipped. -/
theorem claim_C4 {α : Type} (key : α → Nat) (all : List α) (pred : α → Bool)
    (k : Int) (ec : List Char) (c1 c2 : Connection α)
    (hsort : all.Pairwise (fun a b => key a < key b))
    (h1 : paginate key all pred ⟨some k, none, none, none⟩ = .ok c1)
    (hec : c1.pageInfo.endCursor = some ec)
    (h2 : paginate key all pred ⟨some k, some ec, none, none⟩ = .ok c2) :
    c1.edges.map (·.node) = (all.filter pred).take k.toNat ∧
      c2.edges.map (·.node) = ((all.filter pred).drop k.toNat).take k.toNat := by
  have hsF : (all.filter pred).Pairwise (fun a b => key a < key b) :=
    hsort.filter pred
  have hneg : negArg (some k) = false := by
    cases hb : negArg (some k)
    · rfl
    · rw [paginate_first_neg key all pred k none none hb] at h1
      exact Except.noConfusion h1
  have hab1 : afterBounded key (all.filter pred) none = all.filter pred := rfl
  have hmap : (some k).map Int.toNat = some k.toNat := rfl
  rw [paginate_forward key all pred (some k) none none hneg rfl] at h1
  have hc1 := Except.ok.inj h1
  have hnodes1 : c1.edges.map (·.node) = (all.filter pred).take k.toNat := by
    rw [← hc1, mkConnection_nodes, hab1, hmap, forwardWindow_fst]
  rw [← hc1, mkConnection_endCursor, hab1, hmap, forwardWindow_fst] at hec
  obtain ⟨m, hm, hecm⟩ := Option.map_eq_some'.mp hec
  have hd2 : decodePos (some ec) = .ok (some (key m)) := by
    rw [← hecm]
    simp [decodePos, decodeCursor, encodeCursor, parseDigits_natToChars]
  rw [paginate_forward key all pred (some k) (some ec) (some (key m)) hneg hd2]
    at h2
  have hc2 := Except.ok.inj h2
  have hab2 : afterBounded key (all.filter pred) (some (key m)) =
      (all.filter pred).drop k.toNat := by
    show (all.filter pred).filter (fun e => decide (key m < key e)) = _
    exact filter_gt_getLast_take key _ hsF k.toNat m hm
  have hnodes2 : c2.edges.map (·.node) =
      ((all.filter pred).drop k.toNat).take k.toNat := by
    rw [← hc2, mkConnection_nodes, hab2, hmap, forwardWindow_fst]
  exact ⟨hnodes1, hnodes2⟩

theorem claim_C4_witness :
    ∃ c1 c2,
      users4.Pairwise (fun a b => a.key < b.key) ∧
      paginate User.key users4 (fun _ => true) ⟨some 2, none, none, none⟩ =
        .ok c1 ∧
      c1.pageInfo.endCursor = some (natToChars 2) ∧
      paginate User.key users4 (fun _ => true)
          ⟨some 2, some (natToChars 2), none, none⟩ = .ok c2 ∧
      (c1.edges.map (·.node) =
          (users4.filter (fun _ => true)).take (2 : Int).toNat ∧
        c2.edges.map (·.node) =
          ((users4.filter (fun _ => true)).drop (2 : Int).toNat).take
            (2 : Int).toNat) :=
  ⟨_, _, by decide, rfl, rfl, rfl,
    claim_C4 User.key users4 (fun _ => true) 2 (natToChars 2) _ _
      (by decide) rfl rfl rfl⟩

theorem paginate_last_neg {α : Type} (key : α → Nat) (all : List α)
    (pred : α → Bool) (k : Int) (a? b? : Option (List Char))
    (hneg : negArg (some k) = true) :
    paginate key all pred ⟨none, a?, some k, b?⟩ = .error .invalidArgument := by
  simp [paginate, hneg]

theorem backwardWindow_fst {α : Type} (l : List α) (k : Nat) :
    (backwardWindow l k).1 = l.drop (l.length - k) := by
  simp only [backwardWindow, List.take_take]
  have hmin : min k (k + 1) = k := by omega
  rw [hmin, ← List.rtake_eq_reverse_take_reverse, List.rtake]

/-- C5: backward pagination (`last=k`, optional `before`) scans
descending internally, takes at most `k` rows strictly before the
decoded position, and reverses the slice: the page it returns is
exactly the `k`-item tail of the ascending bounded scan over the same
filter, and (over a sorted collection) its edges are in the same
ascending order as forward pagination. -/
theorem claim_C5 {α : Type} (key : α → Nat) (all : List α) (pred : α → Bool)
    (k : Int) (b? : Option (List Char)) (p? : Option Nat) (c : Connection α)
    (hd : decodePos b? = .ok p?)
    (h : paginate key all pred ⟨none, none, some k, b?⟩ = .ok c) :
    c.edges.map (·.node) =
      (beforeBounded key (all.filter pred) p?).drop
        ((beforeBounded key (all.filter pred) p?).length - k.toNat) ∧
      (all.Pairwise (fun a b => key a < key b) →
        (c.edges.map (·.node)).Pairwise (fun a b => key a < key b)) := by
  have hneg : negArg (some k) = false := by
    cases hb : negArg (some k)
    · rfl
    · rw [paginate_last_neg key all pred k none b? hb] at h
      exact Except.noConfusion h
  rw [paginate_backward key all pred k b? p? hneg hd] at h
  have hc := Except.ok.inj h
  have hnodes : c.edges.map (·.node) =
      (beforeBounded key (all.filter pred) p?).drop
        ((beforeBounded key (all.filter pred) p?).length - k.toNat) := by
    rw [← hc, mkConnection_nodes, backwardWindow_fst]
  refine ⟨hnodes, fun hsort => ?_⟩
  have hbb : (beforeBounded key (all.filter pred) p?).Pairwise
      (fun a b => key a < key b) := by
    cases p? with
    | none => exact hsort.filter pred
    | some p => exact (hsort.filter pred).filter _
  rw [hnodes]
  exact List.Pairwise.sublist (List.drop_sublist _ _) hbb

theorem claim_C5_witness :
    ∃ c, decodePos none = .ok (none : Option Nat) ∧
      paginate User.key users4 (fun _ => true) ⟨none, none, some 2, none⟩ =
        .ok c ∧
      (c.edges.map (·.node) =
          (beforeBounded User.key (users4.filter (fun _ => true)) none).drop
            ((beforeBounded User.key (users4.filter (fun _ => true))
              none).length - (2 : Int).toNat) ∧
        (users4.Pairwise (fun a b => a.key < b.key) →
          (c.edges.map (·.node)).Pairwise (fun a b => a.key < b.key))) :=
  ⟨_, rfl, rfl,
    claim_C5 User.key users4 (fun _ => true) 2 none none _ rfl rfl⟩

/-- C6: with exactly the four users `U1`..`U4` created in order, the
`users` connection with no pagination arguments and no filter returns
`totalCount = 4` and four edges whose nodes are `U1`, `U2`, `U3`, `U4`
in creation order. -/
theorem claim_C6 :
    (paginate User.key users4 (fun _ => true) noArgs).map
      (fun c => (c.totalCount, c.edges.map (·.node))) = .ok (4, users4) := rfl

/-- C9: the opaque `id` the server returns at the wire level is the very
string the entity computes client-side via `GlobalID()` — one and the
same encoding — so an ID computed from an entity without a server round
trip is accepted by `node`, `nodes`, and the `where{id}` filter. -/
theorem claim_C9 :
    (∀ u : User, wireNodeId u = u.globalID) ∧
    (paginate User.key users4 (fun _ => true) noArgs).map
        (fun c => c.edges.map (fun e => wireNodeId e.node)) =
      .ok (users4.map User.globalID) ∧
    resolveNode (userRegistry users4) (User.globalID ⟨1, "U1"⟩) =
      some ⟨1, "U1"⟩ ∧
    resolveNodes (userRegistry users4)
        [User.globalID ⟨1, "U1"⟩, User.globalID ⟨2, "U2"⟩] =
      [some ⟨1, "U1"⟩, some ⟨2, "U2"⟩] ∧
    (paginate User.key users4 (whereIdPred (User.globalID ⟨1, "U1"⟩))
        ⟨some 1, none, none, none⟩).map
        (fun c => (c.totalCount, c.edges.map (·.node))) =
      .ok (1, [⟨1, "U1"⟩]) :=
  ⟨fun _ => rfl, rfl, rfl, rfl, rfl⟩

/-- C10: a video created without an explicit `id` gets the freshly
generated UUID as its primary key; both `id` and `post_id` carry the
Global ID marker, `post_id` additionally exposed with GraphQL type `ID`;
and the Global ID encoding round-trips UUID raw keys, so it applies to
UUID keys and ordinary fields, not only integer primary keys. -/
theorem claim_C10 :
    (∀ g nm p, (createVideo g none nm p).id = g) ∧
    (∃ f, videoFields.find? (fun f => decide (f.name = "id")) = some f ∧
      f.kind = .uuidField ∧ f.hasDefault = true ∧ Annot.globalID ∈ f.annots) ∧
    (∃ f, videoFields.find? (fun f => decide (f.name = "post_id")) = some f ∧
      Annot.globalID ∈ f.annots ∧ Annot.gqlType "ID" ∈ f.annots) ∧
    (∀ u : Nat, decode [videoTag] (encode videoTag (.uuidKey u)) =
      .ok (videoTag, .uuidKey u)) :=
  ⟨fun _ _ _ => rfl,
    ⟨_, rfl, rfl, rfl, by decide⟩,
    ⟨_, rfl, by decide, by decide⟩,
    fun _ => decode_encode _ (by decide) (by decide)⟩
